import Mathlib

/-!
Verification of the SwissAIHacks25 task-extraction evaluation harness and the
dashboard data contracts, as a shallow embedding in Lean 4.

The evaluation harness (scorer, context selector, extraction-backend parser,
aggregation) lives in the analysis script whose interface is documented in
TASK_ANALYSIS_README.md; the script body is not part of the checked sources,
so those components are modelled from the specification, faithfully to its
words (each such definition is marked in its doc comment).  The dashboard
types and the client-database filter are translated directly from the
TypeScript sources (frontend types and the ClientDatabase component).
-/

namespace TaskHarness

/-- The closed enumeration of the 8 task kinds, named as in
TASK_ANALYSIS_README.md (section Task Types). -/
inductive TaskType where
  | plan_contact
  | schedule_meeting
  | update_contact_info_non_postal
  | update_contact_info_postal_address
  | update_kyc_activity
  | update_kyc_origin_of_assets
  | update_kyc_purpose_of_businessrelation
  | update_kyc_total_assets
deriving DecidableEq, Repr

/-- The canonical fixed order of the 8 task types. -/
def allTaskTypes : List TaskType :=
  [ .plan_contact, .schedule_meeting, .update_contact_info_non_postal,
    .update_contact_info_postal_address, .update_kyc_activity,
    .update_kyc_origin_of_assets, .update_kyc_purpose_of_businessrelation,
    .update_kyc_total_assets ]

/-- A structured task assertion: a task type plus a parameter map
(parameter name to value), as in the spec data model. -/
structure TaskAssertion where
  task_type : TaskType
  parameters : List (String × String)
deriving DecidableEq, Repr

/-- First-occurrence de-duplication, accumulator form: keeps each element the
first time it is seen. -/
def dedupGo {α : Type} [DecidableEq α] (acc : List α) : List α → List α
  | [] => acc
  | x :: xs => if x ∈ acc then dedupGo acc xs else dedupGo (acc ++ [x]) xs

/-- Modelled from the spec: the de-duplication applied to predictions before
scoring — structurally identical assertions collapse to one, first-seen
occurrence kept. -/
def dedupFirst {α : Type} [DecidableEq α] (l : List α) : List α :=
  dedupGo [] l

/-- Number of parameter entries of the expected assertion that the predicted
assertion also carries (same name and value). -/
def paramOverlap (e p : TaskAssertion) : Nat :=
  (e.parameters.filter (fun kv => decide (kv ∈ p.parameters))).length

/-- Modelled from the spec: among pool candidates of the expected assertion's
task type, pick the one with the most matching parameter values, ties broken
by first-seen order. -/
def pickBest (e : TaskAssertion) : List TaskAssertion → Option TaskAssertion
  | [] => none
  | p :: ps =>
    if p.task_type = e.task_type then
      match pickBest e ps with
      | none => some p
      | some q => if paramOverlap e p < paramOverlap e q then some q else some p
    else pickBest e ps

/-- Result of the bipartite matching pass: matched (expected, predicted)
pairs, unmatched expected assertions, and the leftover prediction pool. -/
structure MatchResult where
  matched : List (TaskAssertion × TaskAssertion)
  falseNeg : List TaskAssertion
  leftover : List TaskAssertion
deriving DecidableEq, Repr

/-- Modelled from the spec: greedy bipartite matching of expected assertions
against the (de-duplicated) prediction pool, keyed on task type; each matched
prediction is consumed from the pool. -/
def matchTasks : List TaskAssertion → List TaskAssertion → MatchResult
  | [], pool => ⟨[], [], pool⟩
  | e :: es, pool =>
    match pickBest e pool with
    | none =>
      let r := matchTasks es pool
      ⟨r.matched, e :: r.falseNeg, r.leftover⟩
    | some p =>
      let r := matchTasks es (pool.erase p)
      ⟨(e, p) :: r.matched, r.falseNeg, r.leftover⟩

/-- Weight of a false negative (a missed real task); spec section 4.4. -/
def FN_WEIGHT : ℚ := 2

/-- Weight of a false positive (a spurious prediction); spec section 4.4. -/
def FP_WEIGHT : ℚ := 1

/-- The per-transcript scoring record, as in the spec data model. -/
structure ScoreRecord where
  penalty : ℚ
  false_negatives : List TaskAssertion
  false_positives : List TaskAssertion
  matched : List (TaskAssertion × TaskAssertion)
deriving DecidableEq, Repr

/-- Modelled from the spec: the scorer of section 4.4 — de-duplicate the
predictions, match on task type, and charge FN_WEIGHT per unmatched expected
assertion and FP_WEIGHT per unmatched prediction. -/
def score (expected predicted : List TaskAssertion) : ScoreRecord :=
  let dpred := dedupFirst predicted
  let r := matchTasks expected dpred
  ⟨FN_WEIGHT * (r.falseNeg.length : ℚ) + FP_WEIGHT * (r.leftover.length : ℚ),
    r.falseNeg, r.leftover, r.matched⟩

/-- Membership in the accumulator dedup: an element is in the output iff it
is in the accumulator or in the input. -/
theorem mem_dedupGo {α : Type} [DecidableEq α] (l : List α) :
    ∀ (acc : List α) (a : α), a ∈ dedupGo acc l ↔ a ∈ acc ∨ a ∈ l := by
  induction l with
  | nil => intro acc a; simp [dedupGo]
  | cons x xs ih =>
    intro acc a
    by_cases hx : x ∈ acc
    · simp only [dedupGo, if_pos hx, ih]
      constructor
      · rintro (h | h)
        · exact Or.inl h
        · exact Or.inr (List.mem_cons_of_mem _ h)
      · rintro (h | h)
        · exact Or.inl h
        · rcases List.mem_cons.mp h with rfl | h
          · exact Or.inl hx
          · exact Or.inr h
    · simp only [dedupGo, if_neg hx, ih, List.mem_append, List.mem_singleton,
        List.mem_cons]
      tauto

/-- Processing a concatenation with the accumulator dedup is processing the
two parts in sequence. -/
theorem dedupGo_append {α : Type} [DecidableEq α] (l₁ : List α) :
    ∀ (acc l₂ : List α), dedupGo acc (l₁ ++ l₂) = dedupGo (dedupGo acc l₁) l₂ := by
  induction l₁ with
  | nil => intro acc l₂; simp [dedupGo]
  | cons x xs ih =>
    intro acc l₂
    by_cases hx : x ∈ acc
    · simp only [List.cons_append, dedupGo, List.append_eq, if_pos hx, ih]
    · simp only [List.cons_append, dedupGo, List.append_eq, if_neg hx, ih]

/-- De-duplication preserves membership. -/
theorem mem_dedupFirst {α : Type} [DecidableEq α] (l : List α) (a : α) :
    a ∈ dedupFirst l ↔ a ∈ l := by
  simp [dedupFirst, mem_dedupGo]

/-- Appending an element already present in the list leaves the
de-duplicated list unchanged. -/
theorem dedupFirst_append_of_mem {α : Type} [DecidableEq α]
    {l : List α} {x : α} (hx : x ∈ l) : dedupFirst (l ++ [x]) = dedupFirst l := by
  have hmem : x ∈ dedupFirst l := (mem_dedupFirst l x).mpr hx
  simp only [dedupFirst] at hmem ⊢
  rw [dedupGo_append]
  simp [dedupGo, hmem]

/-- Expected assertion for the KYC asset-origin task, no parameters. -/
def kycOriginAssert : TaskAssertion := ⟨.update_kyc_origin_of_assets, []⟩

/-- Expected assertion for the plan-contact task, no parameters. -/
def planContactAssert : TaskAssertion := ⟨.plan_contact, []⟩

/-- Assertion for the postal-address update task, no parameters. -/
def postalAssert : TaskAssertion := ⟨.update_contact_info_postal_address, []⟩

/-- C1: for every pair of an expected task set and a predicted task list, the
penalty is exactly 2.0 times the number of false negatives plus 1.0 times the
number of false positives, with no other terms; in particular, for expected
consisting of the KYC asset-origin and plan-contact assertions and an empty
prediction, the penalty is 4.0. -/
theorem penalty_is_weighted_error_count :
    (∀ expected predicted : List TaskAssertion,
      (score expected predicted).penalty =
        2 * ((score expected predicted).false_negatives.length : ℚ) +
          1 * ((score expected predicted).false_positives.length : ℚ)) ∧
    (score [kycOriginAssert, planContactAssert] []).penalty = 4 := by
  constructor
  · intro expected predicted
    simp [score, FN_WEIGHT, FP_WEIGHT]
  · simp [score, dedupFirst, dedupGo, matchTasks, pickBest, FN_WEIGHT, FP_WEIGHT]
    norm_num

/-- C4: when both the expected task set and the predicted task list are
empty, the scorer returns penalty exactly 0. -/
theorem empty_empty_penalty_zero : (score [] []).penalty = 0 := by
  simp [score, dedupFirst, dedupGo, matchTasks]

/-- C2: appending a duplicate of an assertion already in the predicted list
leaves the entire score record unchanged. -/
theorem score_duplicate_invariant (expected predicted : List TaskAssertion)
    (x : TaskAssertion) (hx : x ∈ predicted) :
    score expected (predicted ++ [x]) = score expected predicted := by
  simp [score, dedupFirst_append_of_mem hx]

/-- Witness for C2 at the spec's Scenario D: predicting the postal-address
task twice against an expected set containing it once scores identically to
predicting it once, with 0 false negatives, 0 false positives, penalty 0. -/
theorem score_duplicate_invariant_witness :
    postalAssert ∈ [postalAssert] ∧
    score [postalAssert] ([postalAssert] ++ [postalAssert]) =
      score [postalAssert] [postalAssert] ∧
    (score [postalAssert] [postalAssert, postalAssert]).penalty = 0 ∧
    (score [postalAssert] [postalAssert, postalAssert]).false_negatives = [] ∧
    (score [postalAssert] [postalAssert, postalAssert]).false_positives = [] :=
  ⟨by decide,
    score_duplicate_invariant [postalAssert] [postalAssert] postalAssert (by decide),
    by simp [score, dedupFirst, dedupGo, matchTasks, pickBest, paramOverlap,
      postalAssert, FN_WEIGHT, FP_WEIGHT],
    by decide, by decide⟩

/-- The accumulator dedup output has no duplicates when the accumulator has
none. -/
theorem nodup_dedupGo {α : Type} [DecidableEq α] (l : List α) :
    ∀ acc : List α, acc.Nodup → (dedupGo acc l).Nodup := by
  induction l with
  | nil => intro acc h; exact h
  | cons x xs ih =>
    intro acc h
    by_cases hx : x ∈ acc
    · simpa [dedupGo, hx] using ih acc h
    · have hacc : (acc ++ [x]).Nodup := by
        simp [List.nodup_append, h, hx]
      simpa [dedupGo, hx] using ih (acc ++ [x]) hacc

/-- The de-duplicated list has no duplicates. -/
theorem nodup_dedupFirst {α : Type} [DecidableEq α] (l : List α) :
    (dedupFirst l).Nodup :=
  nodup_dedupGo l [] List.nodup_nil

/-- De-duplication sends permuted lists to permuted lists. -/
theorem dedupFirst_perm {α : Type} [DecidableEq α] {l₁ l₂ : List α}
    (h : l₁.Perm l₂) : (dedupFirst l₁).Perm (dedupFirst l₂) := by
  refine (List.perm_ext_iff_of_nodup (nodup_dedupFirst l₁) (nodup_dedupFirst l₂)).mpr ?_
  intro a
  simp [mem_dedupFirst, h.mem_iff]

/-- The best-candidate pick fails exactly when the pool holds no assertion of
the expected task type. -/
theorem pickBest_eq_none_iff (e : TaskAssertion) (pool : List TaskAssertion) :
    pickBest e pool = none ↔
      e.task_type ∉ pool.map TaskAssertion.task_type := by
  induction pool with
  | nil => simp [pickBest]
  | cons p ps ih =>
    by_cases hp : p.task_type = e.task_type
    · simp only [pickBest, if_pos hp, List.map_cons, List.mem_cons]
      constructor
      · intro hnone
        cases hrec : pickBest e ps with
        | none => simp [hrec] at hnone
        | some q => simp [hrec] at hnone; split at hnone <;> simp_all
      · intro hmem
        exact absurd (Or.inl hp.symm) hmem
    · simp only [pickBest, if_neg hp, List.map_cons, List.mem_cons, ih]
      constructor
      · intro hn hmem
        rcases hmem with hmem | hmem
        · exact hp hmem.symm
        · exact hn hmem
      · intro hn hmem
        exact hn (Or.inr hmem)

/-- A successful best-candidate pick returns a pool member of the expected
task type. -/
theorem pickBest_mem_type (e : TaskAssertion) (pool : List TaskAssertion) :
    ∀ q : TaskAssertion, pickBest e pool = some q →
      q ∈ pool ∧ q.task_type = e.task_type := by
  induction pool with
  | nil => intro q h; simp [pickBest] at h
  | cons p ps ih =>
    intro q h
    by_cases hp : p.task_type = e.task_type
    · simp only [pickBest, if_pos hp] at h
      cases hrec : pickBest e ps with
      | none =>
        simp [hrec] at h
        exact ⟨by simp [← h], h ▸ hp⟩
      | some r =>
        obtain ⟨hrm, hrt⟩ := ih r hrec
        simp only [hrec] at h
        split at h
        · cases h; exact ⟨List.mem_cons_of_mem _ hrm, hrt⟩
        · cases h; exact ⟨List.mem_cons_self _ _, hp⟩
    · simp only [pickBest, if_neg hp] at h
      obtain ⟨hm, ht⟩ := ih q h
      exact ⟨List.mem_cons_of_mem _ hm, ht⟩

/-- Matching against pools holding the same multiset of task types yields the
same false negatives, the same matched expected assertions, and leftovers
with the same multiset of task types. -/
theorem matchTasks_perm (es : List TaskAssertion) :
    ∀ pool₁ pool₂ : List TaskAssertion,
    (pool₁.map TaskAssertion.task_type).Perm (pool₂.map TaskAssertion.task_type) →
    (matchTasks es pool₁).falseNeg = (matchTasks es pool₂).falseNeg ∧
    (matchTasks es pool₁).matched.map Prod.fst =
      (matchTasks es pool₂).matched.map Prod.fst ∧
    ((matchTasks es pool₁).leftover.map TaskAssertion.task_type).Perm
      ((matchTasks es pool₂).leftover.map TaskAssertion.task_type) := by
  induction es with
  | nil => intro p₁ p₂ h; exact ⟨rfl, rfl, h⟩
  | cons e es ih =>
    intro p₁ p₂ h
    cases h₁ : pickBest e p₁ with
    | none =>
      have hn₁ : e.task_type ∉ p₁.map TaskAssertion.task_type :=
        (pickBest_eq_none_iff e p₁).mp h₁
      have h₂ : pickBest e p₂ = none :=
        (pickBest_eq_none_iff e p₂).mpr (fun hm => hn₁ (h.mem_iff.mpr hm))
      obtain ⟨hfn, hmm, hl⟩ := ih p₁ p₂ h
      simp only [matchTasks, h₁, h₂]
      exact ⟨by rw [hfn], hmm, hl⟩
    | some q₁ =>
      obtain ⟨hq₁m, hq₁t⟩ := pickBest_mem_type e p₁ q₁ h₁
      cases h₂ : pickBest e p₂ with
      | none =>
        exfalso
        have hn₂ : e.task_type ∉ p₂.map TaskAssertion.task_type :=
          (pickBest_eq_none_iff e p₂).mp h₂
        exact hn₂ (h.mem_iff.mp (hq₁t ▸ List.mem_map_of_mem _ hq₁m))
      | some q₂ =>
        obtain ⟨hq₂m, hq₂t⟩ := pickBest_mem_type e p₂ q₂ h₂
        have he₁ : (p₁.map TaskAssertion.task_type).Perm
            (e.task_type :: (p₁.erase q₁).map TaskAssertion.task_type) := by
          have := (List.perm_cons_erase hq₁m).map TaskAssertion.task_type
          simpa [hq₁t] using this
        have he₂ : (p₂.map TaskAssertion.task_type).Perm
            (e.task_type :: (p₂.erase q₂).map TaskAssertion.task_type) := by
          have := (List.perm_cons_erase hq₂m).map TaskAssertion.task_type
          simpa [hq₂t] using this
        have herase : ((p₁.erase q₁).map TaskAssertion.task_type).Perm
            ((p₂.erase q₂).map TaskAssertion.task_type) :=
          (he₁.symm.trans (h.trans he₂)).cons_inv
        obtain ⟨hfn, hmm, hl⟩ := ih (p₁.erase q₁) (p₂.erase q₂) herase
        simp only [matchTasks, h₁, h₂]
        exact ⟨hfn, by simp [hmm], hl⟩

/-- C3 counterexample: with one expected plan-contact assertion and two
predicted plan-contact assertions that tie on parameter overlap, swapping
the prediction order changes the resulting score record (the matched pair
and the false-positive list swap), so permutation does not preserve the
whole record. -/
theorem score_perm_counterexample :
    ([⟨.plan_contact, [("x", "1")]⟩, ⟨.plan_contact, [("y", "2")]⟩] :
        List TaskAssertion).Perm
      [⟨.plan_contact, [("y", "2")]⟩, ⟨.plan_contact, [("x", "1")]⟩] ∧
    score [⟨.plan_contact, [("channel", "phone")]⟩]
        [⟨.plan_contact, [("x", "1")]⟩, ⟨.plan_contact, [("y", "2")]⟩] ≠
      score [⟨.plan_contact, [("channel", "phone")]⟩]
        [⟨.plan_contact, [("y", "2")]⟩, ⟨.plan_contact, [("x", "1")]⟩] := by
  constructor
  · exact List.Perm.swap _ _ _
  · intro heq
    have hfp := congrArg ScoreRecord.false_positives heq
    exact absurd hfp (by decide)

/-- C3 amended: permuting the predicted task list preserves the penalty, the
false-negative list, the number of false positives, and the sequence of
matched expected assertions (though not, in general, which tied same-type
prediction is matched or left as a false positive). -/
theorem score_perm_invariant (expected p₁ p₂ : List TaskAssertion)
    (h : p₁.Perm p₂) :
    (score expected p₁).penalty = (score expected p₂).penalty ∧
    (score expected p₁).false_negatives = (score expected p₂).false_negatives ∧
    (score expected p₁).false_positives.length =
      (score expected p₂).false_positives.length ∧
    (score expected p₁).matched.map Prod.fst =
      (score expected p₂).matched.map Prod.fst := by
  have hd : (dedupFirst p₁).Perm (dedupFirst p₂) := dedupFirst_perm h
  obtain ⟨hfn, hmm, hl⟩ :=
    matchTasks_perm expected (dedupFirst p₁) (dedupFirst p₂)
      (hd.map TaskAssertion.task_type)
  have hlen : (matchTasks expected (dedupFirst p₁)).leftover.length =
      (matchTasks expected (dedupFirst p₂)).leftover.length := by
    simpa using hl.length_eq
  refine ⟨?_, ?_, ?_, ?_⟩ <;> simp [score, hfn, hlen, hmm]

/-- Witness for C3 amended at a concrete tied pair of predictions. -/
theorem score_perm_invariant_witness :
    ([⟨.plan_contact, [("x", "1")]⟩, ⟨.plan_contact, [("y", "2")]⟩] :
        List TaskAssertion).Perm
      [⟨.plan_contact, [("y", "2")]⟩, ⟨.plan_contact, [("x", "1")]⟩] ∧
    (score [⟨.plan_contact, [("channel", "phone")]⟩]
        [⟨.plan_contact, [("x", "1")]⟩, ⟨.plan_contact, [("y", "2")]⟩]).penalty =
      (score [⟨.plan_contact, [("channel", "phone")]⟩]
        [⟨.plan_contact, [("y", "2")]⟩, ⟨.plan_contact, [("x", "1")]⟩]).penalty :=
  ⟨List.Perm.swap _ _ _,
    (score_perm_invariant [⟨.plan_contact, [("channel", "phone")]⟩]
      [⟨.plan_contact, [("x", "1")]⟩, ⟨.plan_contact, [("y", "2")]⟩]
      [⟨.plan_contact, [("y", "2")]⟩, ⟨.plan_contact, [("x", "1")]⟩]
      (List.Perm.swap _ _ _)).1⟩

/-- A corpus example: transcript text paired with its expected task set, as
in the spec data model (split and id omitted where irrelevant to selection). -/
structure TranscriptExample where
  id : String
  text : String
  expected_tasks : List TaskAssertion
deriving DecidableEq, Repr

/-- An example exemplifies exactly one task type: its expected tasks are
nonempty and all of that type. -/
def exactlyType (T : TaskType) (ex : TranscriptExample) : Bool :=
  !ex.expected_tasks.isEmpty &&
    ex.expected_tasks.all (fun t => t.task_type == T)

/-- An example whose expected task set is empty: the explicit no-task case. -/
def noTaskExample (ex : TranscriptExample) : Bool :=
  ex.expected_tasks.isEmpty

/-- Modelled from the spec: pick the shortest training transcript that
contains exactly the given task type, ties broken by corpus order. -/
def pickShortestExact (T : TaskType) :
    List TranscriptExample → Option TranscriptExample
  | [] => none
  | ex :: rest =>
    if exactlyType T ex then
      match pickShortestExact T rest with
      | none => some ex
      | some b => if b.text.length < ex.text.length then some b else some ex
    else pickShortestExact T rest

/-- Modelled from the spec: greedy pass over the canonical task-type order,
adding one covering example per type while the budget allows. -/
def coverTypes (k : Nat) (train : List TranscriptExample) :
    List TaskType → List TranscriptExample → List TranscriptExample
  | [], acc => acc
  | T :: Ts, acc =>
    if acc.length < k then
      match pickShortestExact T train with
      | some ex => coverTypes k train Ts (acc ++ [ex])
      | none => coverTypes k train Ts acc
    else acc

/-- Modelled from the spec: the Context Selector of section 4.2 — cover all
task types greedily, then, if budget remains, add a no-task example. -/
def selectContext (k : Nat) (train : List TranscriptExample) :
    List TranscriptExample :=
  let c := coverTypes k train allTaskTypes []
  if c.length < k then
    match train.find? noTaskExample with
    | some ex => c ++ [ex]
    | none => c
  else c

/-- A successful shortest-exact pick returns a training example that
exemplifies exactly the requested type. -/
theorem pickShortestExact_mem_exact (T : TaskType)
    (train : List TranscriptExample) :
    ∀ ex : TranscriptExample, pickShortestExact T train = some ex →
      ex ∈ train ∧ exactlyType T ex = true := by
  induction train with
  | nil => intro ex h; simp [pickShortestExact] at h
  | cons e rest ih =>
    intro ex h
    by_cases he : exactlyType T e
    · simp only [pickShortestExact, if_pos he] at h
      cases hrec : pickShortestExact T rest with
      | none =>
        simp [hrec] at h
        exact ⟨by simp [← h], h ▸ he⟩
      | some b =>
        obtain ⟨hbm, hbt⟩ := ih b hrec
        simp only [hrec] at h
        split at h
        · cases h; exact ⟨List.mem_cons_of_mem _ hbm, hbt⟩
        · cases h; exact ⟨List.mem_cons_self _ _, he⟩
    · simp only [pickShortestExact, if_neg he] at h
      obtain ⟨hm, ht⟩ := ih ex h
      exact ⟨List.mem_cons_of_mem _ hm, ht⟩

/-- The shortest-exact pick fails only when no training example exemplifies
exactly the requested type. -/
theorem pickShortestExact_eq_none_iff (T : TaskType)
    (train : List TranscriptExample) :
    pickShortestExact T train = none ↔
      ∀ ex ∈ train, exactlyType T ex = false := by
  induction train with
  | nil => simp [pickShortestExact]
  | cons e rest ih =>
    by_cases he : exactlyType T e
    · simp only [pickShortestExact, if_pos he]
      constructor
      · intro h
        cases hrec : pickShortestExact T rest with
        | none => simp [hrec] at h
        | some b => simp [hrec] at h; split at h <;> simp_all
      · intro h
        exact absurd he (by simpa using h e (List.mem_cons_self _ _))
    · simp only [pickShortestExact, if_neg he, ih]
      constructor
      · intro h ex hex
        rcases List.mem_cons.mp hex with rfl | hex
        · simpa using he
        · exact h ex hex
      · intro h ex hex
        exact h ex (List.mem_cons_of_mem _ hex)

/-- The greedy covering pass never exceeds the budget. -/
theorem coverTypes_length_le (k : Nat) (train : List TranscriptExample)
    (Ts : List TaskType) :
    ∀ acc : List TranscriptExample, acc.length ≤ k →
      (coverTypes k train Ts acc).length ≤ k := by
  induction Ts with
  | nil => intro acc h; exact h
  | cons T Ts ih =>
    intro acc h
    by_cases hlt : acc.length < k
    · simp only [coverTypes, if_pos hlt]
      cases pickShortestExact T train with
      | none => exact ih acc h
      | some ex => exact ih (acc ++ [ex]) (by simp; omega)
    · simpa [coverTypes, hlt] using h

/-- The greedy covering pass adds at most one example per task type. -/
theorem coverTypes_length_le_add (k : Nat) (train : List TranscriptExample)
    (Ts : List TaskType) :
    ∀ acc : List TranscriptExample,
      (coverTypes k train Ts acc).length ≤ acc.length + Ts.length := by
  induction Ts with
  | nil => intro acc; simp [coverTypes]
  | cons T Ts ih =>
    intro acc
    by_cases hlt : acc.length < k
    · simp only [coverTypes, if_pos hlt]
      cases pickShortestExact T train with
      | none =>
        calc (coverTypes k train Ts acc).length ≤ acc.length + Ts.length := ih acc
          _ ≤ acc.length + (T :: Ts).length := by simp
      | some ex =>
        calc (coverTypes k train Ts (acc ++ [ex])).length
            ≤ (acc ++ [ex]).length + Ts.length := ih (acc ++ [ex])
          _ = acc.length + (T :: Ts).length := by simp; omega
    · simp only [coverTypes, if_neg hlt, List.length_cons]; omega

/-- The greedy covering pass only extends the accumulator. -/
theorem coverTypes_extends (k : Nat) (train : List TranscriptExample)
    (Ts : List TaskType) :
    ∀ acc : List TranscriptExample,
      ∃ l : List TranscriptExample, coverTypes k train Ts acc = acc ++ l := by
  induction Ts with
  | nil => intro acc; exact ⟨[], by simp [coverTypes]⟩
  | cons T Ts ih =>
    intro acc
    by_cases hlt : acc.length < k
    · simp only [coverTypes, if_pos hlt]
      cases pickShortestExact T train with
      | none => exact ih acc
      | some ex =>
        obtain ⟨l, hl⟩ := ih (acc ++ [ex])
        exact ⟨ex :: l, by simp [hl]⟩
    · exact ⟨[], by simp [coverTypes, hlt]⟩

/-- When the budget can absorb one example per remaining type and every
remaining type has an exactly-covering training example, the covering pass
output exemplifies every remaining type. -/
theorem coverTypes_covers (k : Nat) (train : List TranscriptExample)
    (Ts : List TaskType) :
    ∀ acc : List TranscriptExample, acc.length + Ts.length ≤ k →
      (∀ T ∈ Ts, ∃ ex ∈ train, exactlyType T ex = true) →
      ∀ T ∈ Ts, ∃ ex ∈ coverTypes k train Ts acc, exactlyType T ex = true := by
  induction Ts with
  | nil => intro acc _ _ T hT; simp at hT
  | cons T' Ts ih =>
    intro acc hlen hexist T hT
    have hlt : acc.length < k := by simp at hlen; omega
    obtain ⟨ex', hex'm, hex't⟩ := hexist T' (List.mem_cons_self _ _)
    have hpick : pickShortestExact T' train ≠ none := by
      intro hn
      have := (pickShortestExact_eq_none_iff T' train).mp hn ex' hex'm
      simp [this] at hex't
    cases hp : pickShortestExact T' train with
    | none => exact absurd hp hpick
    | some ex0 =>
      obtain ⟨hex0m, hex0t⟩ := pickShortestExact_mem_exact T' train ex0 hp
      simp only [coverTypes, if_pos hlt, hp]
      rcases List.mem_cons.mp hT with rfl | hT
      · obtain ⟨l, hl⟩ := coverTypes_extends k train Ts (acc ++ [ex0])
        refine ⟨ex0, ?_, hex0t⟩
        rw [hl]
        simp
      · exact ih (acc ++ [ex0]) (by simp at hlen ⊢; omega)
          (fun S hS => hexist S (List.mem_cons_of_mem _ hS)) T hT

/-- An example references a task type when one of its expected tasks is of
that type. -/
def referencesType (T : TaskType) (ex : TranscriptExample) : Bool :=
  ex.expected_tasks.any (fun t => t.task_type == T)

/-- An example exemplifying exactly a type references it. -/
theorem referencesType_of_exactlyType {T : TaskType} {ex : TranscriptExample}
    (h : exactlyType T ex = true) : referencesType T ex = true := by
  unfold exactlyType at h
  unfold referencesType
  cases hts : ex.expected_tasks with
  | nil => rw [hts] at h; simp at h
  | cons t rest =>
    rw [hts] at h
    simp only [Bool.and_eq_true, List.all_cons] at h
    simp [List.any_cons, h.2.1]

/-- C5 amended: for a training split holding, for each of the 8 task types,
an example exemplifying exactly that type, and at least one no-task example,
and a budget of at least 9, the Context Selector output references every
one of the 8 task types, includes a no-task example, and never exceeds the
budget. -/
theorem selectContext_spec (k : Nat) (train : List TranscriptExample)
    (hk : 9 ≤ k)
    (hcov : ∀ T ∈ allTaskTypes, ∃ ex ∈ train, exactlyType T ex = true)
    (hnt : ∃ ex ∈ train, noTaskExample ex = true) :
    (∀ T ∈ allTaskTypes, ∃ ex ∈ selectContext k train,
      referencesType T ex = true) ∧
    (∃ ex ∈ selectContext k train, noTaskExample ex = true) ∧
    (selectContext k train).length ≤ k := by
  have hcovlen : (coverTypes k train allTaskTypes []).length ≤ 8 := by
    have := coverTypes_length_le_add k train allTaskTypes []
    simpa [allTaskTypes] using this
  have hlt : (coverTypes k train allTaskTypes []).length < k := by omega
  have hfind : train.find? noTaskExample ≠ none := by
    obtain ⟨ex, hexm, hext⟩ := hnt
    intro hn
    have := List.find?_eq_none.mp hn ex hexm
    simp [hext] at this
  cases hf : train.find? noTaskExample with
  | none => exact absurd hf hfind
  | some ex0 =>
    have hex0 : noTaskExample ex0 = true := List.find?_some hf
    have hsel : selectContext k train =
        coverTypes k train allTaskTypes [] ++ [ex0] := by
      simp only [selectContext, if_pos hlt, hf]
    refine ⟨?_, ⟨ex0, by rw [hsel]; simp, hex0⟩, ?_⟩
    · intro T hT
      obtain ⟨ex, hexm, hext⟩ :=
        coverTypes_covers k train allTaskTypes []
          (by simpa [allTaskTypes] using by omega : 0 + allTaskTypes.length ≤ k)
          hcov T hT
      exact ⟨ex, by rw [hsel]; exact List.mem_append_left _ hexm,
        referencesType_of_exactlyType hext⟩
    · rw [hsel]; simp; omega

/-- A nine-example training split: one exactly-covering example per task
type plus one no-task example. -/
def witnessTrain : List TranscriptExample :=
  (allTaskTypes.map fun T => ⟨"cover", "t", [⟨T, []⟩]⟩) ++ [⟨"none", "t", []⟩]

/-- Witness for C5 amended at the nine-example training split and budget
10. -/
theorem selectContext_spec_witness :
    (9 ≤ 10 ∧
      (∀ T ∈ allTaskTypes, ∃ ex ∈ witnessTrain, exactlyType T ex = true) ∧
      (∃ ex ∈ witnessTrain, noTaskExample ex = true)) ∧
    ((∀ T ∈ allTaskTypes, ∃ ex ∈ selectContext 10 witnessTrain,
        referencesType T ex = true) ∧
      (∃ ex ∈ selectContext 10 witnessTrain, noTaskExample ex = true) ∧
      (selectContext 10 witnessTrain).length ≤ 10) :=
  ⟨⟨by decide, by decide, by decide⟩,
    selectContext_spec 10 witnessTrain (by decide) (by decide) (by decide)⟩

/-- An eight-type training split in which the plan-contact and
schedule-meeting types occur only inside one mixed two-type example. -/
def mixedTrain : List TranscriptExample :=
  ⟨"mixed", "t", [⟨.plan_contact, []⟩, ⟨.schedule_meeting, []⟩]⟩ ::
    ([ TaskType.update_contact_info_non_postal,
       TaskType.update_contact_info_postal_address,
       TaskType.update_kyc_activity, TaskType.update_kyc_origin_of_assets,
       TaskType.update_kyc_purpose_of_businessrelation,
       TaskType.update_kyc_total_assets ].map
        fun T => ⟨"cover", "t", [⟨T, []⟩]⟩) ++ [⟨"none", "t", []⟩]

/-- C5 counterexample: two training splits meeting the claim's premise (at
least one example referencing each of the 8 task types, and a no-task
example) on which the selector violates the claim — with budget 8 the
output holds no no-task example, and with the plan-contact type occurring
only inside a mixed-type example the output never references it even at
budget 10. -/
theorem selectContext_counterexample :
    ((∀ T ∈ allTaskTypes, ∃ ex ∈ witnessTrain, referencesType T ex = true) ∧
      (∃ ex ∈ witnessTrain, noTaskExample ex = true) ∧
      ¬(∃ ex ∈ selectContext 8 witnessTrain, noTaskExample ex = true)) ∧
    ((∀ T ∈ allTaskTypes, ∃ ex ∈ mixedTrain, referencesType T ex = true) ∧
      (∃ ex ∈ mixedTrain, noTaskExample ex = true) ∧
      ¬(∃ ex ∈ selectContext 10 mixedTrain,
        referencesType TaskType.plan_contact ex = true)) := by
  decide

/-- Opening brace character of the JSON-like payload. -/
def lbrace : Char := Char.ofNat 123

/-- Closing brace character of the JSON-like payload. -/
def rbrace : Char := Char.ofNat 125

/-- The delimiter characters of the canonical structured response format. -/
def delims : List Char := [lbrace, rbrace, ',', ';', ':', '=']

/-- The canonical name of each task type, as listed in
TASK_ANALYSIS_README.md. -/
def typeName : TaskType → String
  | .plan_contact => "plan_contact"
  | .schedule_meeting => "schedule_meeting"
  | .update_contact_info_non_postal => "update_contact_info_non_postal"
  | .update_contact_info_postal_address => "update_contact_info_postal_address"
  | .update_kyc_activity => "update_kyc_activity"
  | .update_kyc_origin_of_assets => "update_kyc_origin_of_assets"
  | .update_kyc_purpose_of_businessrelation =>
      "update_kyc_purpose_of_businessrelation"
  | .update_kyc_total_assets => "update_kyc_total_assets"

/-- Decode a canonical task-type name back to the task type. -/
def decodeTypeName (s : String) : Option TaskType :=
  if s = "plan_contact" then some .plan_contact
  else if s = "schedule_meeting" then some .schedule_meeting
  else if s = "update_contact_info_non_postal" then
    some .update_contact_info_non_postal
  else if s = "update_contact_info_postal_address" then
    some .update_contact_info_postal_address
  else if s = "update_kyc_activity" then some .update_kyc_activity
  else if s = "update_kyc_origin_of_assets" then
    some .update_kyc_origin_of_assets
  else if s = "update_kyc_purpose_of_businessrelation" then
    some .update_kyc_purpose_of_businessrelation
  else if s = "update_kyc_total_assets" then some .update_kyc_total_assets
  else none

/-- Join character lists with a single separator character between parts. -/
def joinSep (d : Char) : List (List Char) → List Char
  | [] => []
  | [p] => p
  | p :: q :: rest => p ++ d :: joinSep d (q :: rest)

/-- Split a character list on a separator character. -/
def splitOnChar (d : Char) : List Char → List (List Char)
  | [] => [[]]
  | c :: cs =>
    match splitOnChar d cs with
    | [] => [[]]
    | h :: t => if c = d then [] :: h :: t else (c :: h) :: t

/-- Option-valued traversal of a list, failing if any element fails. -/
def mapMOpt {α β : Type} (f : α → Option β) : List α → Option (List β)
  | [] => some []
  | x :: xs =>
    match f x with
    | none => none
    | some y => (mapMOpt f xs).map (y :: ·)

/-- Modelled from the spec: render one parameter as name, equals sign,
value. -/
def renderParam (kv : String × String) : List Char :=
  kv.1.data ++ '=' :: kv.2.data

/-- Modelled from the spec: render a parameter map, semicolon-separated. -/
def renderParams (ps : List (String × String)) : List Char :=
  joinSep ';' (ps.map renderParam)

/-- Modelled from the spec: render one task assertion as its type name, a
colon, and its parameters. -/
def renderTask (t : TaskAssertion) : List Char :=
  (typeName t.task_type).data ++ ':' :: renderParams t.parameters

/-- Modelled from the spec: the canonical structured response the backends
are asked to produce — a brace-wrapped, comma-separated task list (the
structured form shared by the few-shot context and the parser). -/
def renderResponse (ts : List TaskAssertion) : String :=
  String.mk (lbrace :: joinSep ',' (ts.map renderTask) ++ [rbrace])

/-- Decode one rendered parameter. -/
def decodeParam (l : List Char) : Option (String × String) :=
  match splitOnChar '=' l with
  | [k, v] => if k = [] then none else some (String.mk k, String.mk v)
  | _ => none

/-- Decode a rendered parameter map. -/
def decodeParams (l : List Char) : Option (List (String × String)) :=
  if l = [] then some [] else mapMOpt decodeParam (splitOnChar ';' l)

/-- Decode one rendered task assertion. -/
def decodeTask (l : List Char) : Option TaskAssertion :=
  match splitOnChar ':' l with
  | [ty, ps] =>
    match decodeTypeName (String.mk ty) with
    | some T => (decodeParams ps).map (fun params => ⟨T, params⟩)
    | none => none
  | _ => none

/-- Decode the interior of the brace span as a task list; an empty interior
is the explicit no-task case. -/
def decodeTasks (l : List Char) : Option (List TaskAssertion) :=
  if l = [] then some [] else mapMOpt decodeTask (splitOnChar ',' l)

/-- Modelled from the spec: collect characters up to the closing brace that
balances an already-open brace, tracking nesting depth; fails on an
unbalanced span. -/
def takeBalanced : List Char → Nat → Option (List Char)
  | [], _ => none
  | c :: cs, depth =>
    if c = rbrace then
      if depth = 0 then some []
      else (takeBalanced cs (depth - 1)).map (c :: ·)
    else if c = lbrace then (takeBalanced cs (depth + 1)).map (c :: ·)
    else (takeBalanced cs depth).map (c :: ·)

/-- Modelled from the spec: locate the first balanced-brace span in the raw
response (the response may contain explanatory prose around the payload). -/
def extractBraceSpan : List Char → Option (List Char)
  | [] => none
  | c :: cs => if c = lbrace then takeBalanced cs 0 else extractBraceSpan cs

/-- Modelled from the spec: the defensive raw-text parser — scan for a
balanced-brace span and attempt a structured decode of its interior. -/
def parseResponse (raw : String) : Option (List TaskAssertion) :=
  match extractBraceSpan raw.data with
  | none => none
  | some inner => decodeTasks inner

/-- Modelled from the spec: a backend's parse step of predict — on parser
failure, recover with an empty task list and a false parse flag instead of
raising. -/
def predictParse (raw : String) : List TaskAssertion × Bool :=
  match parseResponse raw with
  | some ts => (ts, true)
  | none => ([], false)

/-- Rebuilding a string from its character data is the identity. -/
theorem strMk_data (s : String) : String.mk s.data = s := rfl

/-- A string distinct from the empty string has nonempty character data. -/
theorem data_ne_nil_of_ne_empty {s : String} (h : s ≠ "") : s.data ≠ [] := by
  intro hd
  apply h
  cases s with
  | mk d => cases hd; rfl

/-- Every character of every task-type name avoids the format delimiters. -/
theorem typeName_chars_clean :
    ∀ T : TaskType, ∀ c ∈ (typeName T).data, c ∉ delims := by
  intro T; cases T <;> decide

/-- Decoding a rendered task-type name recovers the task type. -/
theorem decodeTypeName_typeName (T : TaskType) :
    decodeTypeName (typeName T) = some T := by cases T <;> rfl

/-- Splitting never returns an empty list of parts. -/
theorem splitOnChar_ne_nil (d : Char) (l : List Char) :
    splitOnChar d l ≠ [] := by
  induction l with
  | nil => simp [splitOnChar]
  | cons c cs ih =>
    cases h : splitOnChar d cs with
    | nil => exact absurd h ih
    | cons h' t =>
      simp only [splitOnChar, h]
      split <;> simp

/-- Splitting a list free of the separator yields that single part. -/
theorem splitOnChar_of_forall_ne (d : Char) (l : List Char)
    (h : ∀ c ∈ l, c ≠ d) : splitOnChar d l = [l] := by
  induction l with
  | nil => rfl
  | cons c cs ih =>
    have hc : c ≠ d := h c (List.mem_cons_self _ _)
    have := ih (fun x hx => h x (List.mem_cons_of_mem _ hx))
    simp [splitOnChar, this, hc]

/-- Splitting peels off a separator-free part before a separator. -/
theorem splitOnChar_append (d : Char) (p rest : List Char)
    (h : ∀ c ∈ p, c ≠ d) :
    splitOnChar d (p ++ d :: rest) = p :: splitOnChar d rest := by
  induction p with
  | nil =>
    simp only [List.nil_append, splitOnChar]
    cases hr : splitOnChar d rest with
    | nil => exact absurd hr (splitOnChar_ne_nil d rest)
    | cons h' t => simp
  | cons c cs ih =>
    have hc : c ≠ d := h c (List.mem_cons_self _ _)
    have hrec := ih (fun x hx => h x (List.mem_cons_of_mem _ hx))
    simp only [List.cons_append, splitOnChar, List.append_eq, hrec, if_neg hc]

/-- Characters of a separator-joined list come from the separator or from
one of the parts. -/
theorem mem_joinSep (d : Char) :
    ∀ parts : List (List Char), ∀ c ∈ joinSep d parts,
      c = d ∨ ∃ p ∈ parts, c ∈ p := by
  intro parts
  induction parts with
  | nil => intro c hc; simp [joinSep] at hc
  | cons p rest ih =>
    intro c hc
    cases rest with
    | nil =>
      simp only [joinSep] at hc
      exact Or.inr ⟨p, List.mem_cons_self _ _, hc⟩
    | cons q rest2 =>
      simp only [joinSep, List.mem_append, List.mem_cons] at hc
      rcases hc with hc | hc | hc
      · exact Or.inr ⟨p, List.mem_cons_self _ _, hc⟩
      · exact Or.inl hc
      · rcases ih c hc with h | ⟨p', hp', hcp'⟩
        · exact Or.inl h
        · exact Or.inr ⟨p', List.mem_cons_of_mem _ hp', hcp'⟩

/-- A separator-joined list of nonempty parts is nonempty. -/
theorem joinSep_ne_nil (d : Char) (parts : List (List Char))
    (hne : parts ≠ []) (hparts : ∀ p ∈ parts, p ≠ []) :
    joinSep d parts ≠ [] := by
  cases parts with
  | nil => exact absurd rfl hne
  | cons p rest =>
    cases rest with
    | nil => exact hparts p (List.mem_cons_self _ _)
    | cons q rest2 =>
      simp only [joinSep]
      intro h
      rcases List.append_eq_nil.mp h with ⟨_, h2⟩
      exact List.cons_ne_nil _ _ h2

/-- Splitting inverts joining when no part holds the separator. -/
theorem splitOnChar_joinSep (d : Char) :
    ∀ parts : List (List Char), parts ≠ [] →
      (∀ p ∈ parts, ∀ c ∈ p, c ≠ d) →
      splitOnChar d (joinSep d parts) = parts := by
  intro parts
  induction parts with
  | nil => intro h; exact absurd rfl h
  | cons p rest ih =>
    intro _ hclean
    cases rest with
    | nil =>
      simp only [joinSep]
      exact splitOnChar_of_forall_ne d p (hclean p (List.mem_cons_self _ _))
    | cons q rest2 =>
      simp only [joinSep]
      rw [splitOnChar_append d p _ (hclean p (List.mem_cons_self _ _))]
      rw [show (joinSep d (q :: rest2)) = joinSep d (q :: rest2) from rfl]
      rw [ih (List.cons_ne_nil _ _)
        (fun p' hp' => hclean p' (List.mem_cons_of_mem _ hp'))]

/-- Traversal succeeds elementwise on a rendered list. -/
theorem mapMOpt_map_some {α β : Type} (f : β → Option α) (g : α → β)
    (xs : List α) (h : ∀ x ∈ xs, f (g x) = some x) :
    mapMOpt f (xs.map g) = some xs := by
  induction xs with
  | nil => rfl
  | cons x rest ih =>
    have hx := h x (List.mem_cons_self _ _)
    have hrec := ih (fun y hy => h y (List.mem_cons_of_mem _ hy))
    simp [mapMOpt, hx, hrec]

/-- A rendered parameter is a nonempty character list. -/
theorem renderParam_ne_nil (kv : String × String) : renderParam kv ≠ [] := by
  simp [renderParam]

/-- Decoding inverts rendering for one parameter whose name is nonempty and
whose name and value avoid the equals sign. -/
theorem decodeParam_renderParam (kv : String × String) (hk : kv.1 ≠ "")
    (h1 : ∀ c ∈ kv.1.data, c ≠ '=') (h2 : ∀ c ∈ kv.2.data, c ≠ '=') :
    decodeParam (renderParam kv) = some kv := by
  unfold decodeParam renderParam
  rw [splitOnChar_append '=' kv.1.data kv.2.data h1,
    splitOnChar_of_forall_ne '=' kv.2.data h2]
  simp [data_ne_nil_of_ne_empty hk, strMk_data]

/-- A parameter map is canonical when every name is nonempty and every name
and value avoids the format delimiters. -/
def canonicalParams (ps : List (String × String)) : Prop :=
  ∀ kv ∈ ps, kv.1 ≠ "" ∧ (∀ c ∈ kv.1.data, c ∉ delims) ∧
    (∀ c ∈ kv.2.data, c ∉ delims)

/-- A task list is canonical when every task's parameter map is. -/
def canonicalTasks (ts : List TaskAssertion) : Prop :=
  ∀ t ∈ ts, canonicalParams t.parameters

instance (ps : List (String × String)) : Decidable (canonicalParams ps) := by
  unfold canonicalParams; infer_instance

instance (ts : List TaskAssertion) : Decidable (canonicalTasks ts) := by
  unfold canonicalTasks; infer_instance

/-- Characters of a rendered parameter are the equals sign or characters of
its name or value. -/
theorem mem_renderParam (kv : String × String) :
    ∀ c ∈ renderParam kv, c = '=' ∨ c ∈ kv.1.data ∨ c ∈ kv.2.data := by
  intro c hc
  simp only [renderParam, List.mem_append, List.mem_cons] at hc
  tauto

/-- Under a canonical parameter map, a rendered parameter avoids every
delimiter other than the equals sign. -/
theorem renderParam_avoids (kv : String × String) (hkv : kv.1 ≠ "" ∧
    (∀ c ∈ kv.1.data, c ∉ delims) ∧ (∀ c ∈ kv.2.data, c ∉ delims))
    (d : Char) (hd : d ∈ delims) (hde : d ≠ '=') :
    ∀ c ∈ renderParam kv, c ≠ d := by
  intro c hc hcd
  rcases mem_renderParam kv c hc with h | h | h
  · exact hde (hcd.symm.trans h)
  · exact hkv.2.1 c h (hcd.symm ▸ hd)
  · exact hkv.2.2 c h (hcd.symm ▸ hd)

/-- Under a canonical parameter map, rendered parameters avoid every
delimiter other than the equals sign and the semicolon. -/
theorem renderParams_avoids (ps : List (String × String))
    (hps : canonicalParams ps) (d : Char) (hd : d ∈ delims)
    (hde : d ≠ '=') (hds : d ≠ ';') :
    ∀ c ∈ renderParams ps, c ≠ d := by
  intro c hc
  rcases mem_joinSep ';' (ps.map renderParam) c hc with rfl | ⟨p, hp, hcp⟩
  · exact hds.symm
  · obtain ⟨kv, hkv, rfl⟩ := List.mem_map.mp hp
    exact renderParam_avoids kv (hps kv hkv) d hd hde c hcp

/-- Decoding inverts rendering for a canonical parameter map. -/
theorem decodeParams_renderParams (ps : List (String × String))
    (hps : canonicalParams ps) : decodeParams (renderParams ps) = some ps := by
  cases ps with
  | nil => rfl
  | cons kv rest =>
    have hne : joinSep ';' ((kv :: rest).map renderParam) ≠ [] := by
      refine joinSep_ne_nil ';' _ (by simp) ?_
      intro p hp
      obtain ⟨kv', _, rfl⟩ := List.mem_map.mp hp
      exact renderParam_ne_nil kv'
    have hclean : ∀ p ∈ (kv :: rest).map renderParam, ∀ c ∈ p, c ≠ ';' := by
      intro p hp c hc
      obtain ⟨kv', hkv', rfl⟩ := List.mem_map.mp hp
      exact renderParam_avoids kv' (hps kv' hkv') ';' (by decide) (by decide)
        c hc
    unfold decodeParams renderParams
    rw [if_neg hne, splitOnChar_joinSep ';' _ (by simp) hclean]
    exact mapMOpt_map_some decodeParam renderParam _ (fun kv' hkv' =>
      decodeParam_renderParam kv' (hps kv' hkv').1
        (fun c hc hcd => (hps kv' hkv').2.1 c hc (hcd ▸ by decide))
        (fun c hc hcd => (hps kv' hkv').2.2 c hc (hcd ▸ by decide)))

/-- A rendered task is a nonempty character list. -/
theorem renderTask_ne_nil (t : TaskAssertion) : renderTask t ≠ [] := by
  simp [renderTask]

/-- Under a canonical parameter map, a rendered task avoids every delimiter
other than the equals sign, the semicolon and the colon. -/
theorem renderTask_avoids (t : TaskAssertion)
    (ht : canonicalParams t.parameters) (d : Char) (hd : d ∈ delims)
    (hde : d ≠ '=') (hds : d ≠ ';') (hdc : d ≠ ':') :
    ∀ c ∈ renderTask t, c ≠ d := by
  intro c hc
  simp only [renderTask, List.mem_append, List.mem_cons] at hc
  rcases hc with hc | rfl | hc
  · intro hcd; exact typeName_chars_clean t.task_type c hc (hcd.symm ▸ hd)
  · exact hdc.symm
  · exact renderParams_avoids t.parameters ht d hd hde hds c hc

/-- Decoding inverts rendering for one canonical task assertion. -/
theorem decodeTask_renderTask (t : TaskAssertion)
    (ht : canonicalParams t.parameters) :
    decodeTask (renderTask t) = some t := by
  have htyc : ∀ c ∈ (typeName t.task_type).data, c ≠ ':' := by
    intro c hc hcd
    exact typeName_chars_clean t.task_type c hc
      (hcd.symm ▸ (by decide : (':' : Char) ∈ delims))
  have hpsc : ∀ c ∈ renderParams t.parameters, c ≠ ':' :=
    renderParams_avoids t.parameters ht ':' (by decide) (by decide) (by decide)
  unfold decodeTask renderTask
  rw [splitOnChar_append ':' _ _ htyc,
    splitOnChar_of_forall_ne ':' _ hpsc]
  simp [strMk_data, decodeTypeName_typeName,
    decodeParams_renderParams t.parameters ht]

/-- Decoding inverts rendering for a canonical task list interior. -/
theorem decodeTasks_joinSep (ts : List TaskAssertion)
    (hc : canonicalTasks ts) :
    decodeTasks (joinSep ',' (ts.map renderTask)) = some ts := by
  cases ts with
  | nil => rfl
  | cons t rest =>
    have hne : joinSep ',' ((t :: rest).map renderTask) ≠ [] := by
      refine joinSep_ne_nil ',' _ (by simp) ?_
      intro p hp
      obtain ⟨t', _, rfl⟩ := List.mem_map.mp hp
      exact renderTask_ne_nil t'
    have hclean : ∀ p ∈ (t :: rest).map renderTask, ∀ c ∈ p, c ≠ ',' := by
      intro p hp c hcp
      obtain ⟨t', ht', rfl⟩ := List.mem_map.mp hp
      exact renderTask_avoids t' (hc t' ht') ',' (by decide) (by decide)
        (by decide) (by decide) c hcp
    unfold decodeTasks
    rw [if_neg hne, splitOnChar_joinSep ',' _ (by simp) hclean]
    exact mapMOpt_map_some decodeTask renderTask _ (fun t' ht' =>
      decodeTask_renderTask t' (hc t' ht'))

/-- Collecting up to the balancing closing brace recovers a brace-free
interior. -/
theorem takeBalanced_clean (inner : List Char)
    (h : ∀ c ∈ inner, c ≠ lbrace ∧ c ≠ rbrace) :
    takeBalanced (inner ++ [rbrace]) 0 = some inner := by
  induction inner with
  | nil => simp [takeBalanced]
  | cons c cs ih =>
    have hc := h c (List.mem_cons_self _ _)
    have hrec := ih (fun x hx => h x (List.mem_cons_of_mem _ hx))
    simp [takeBalanced, hc.1, hc.2, hrec]

/-- Under canonical tasks, the rendered interior is brace-free. -/
theorem interior_brace_free (ts : List TaskAssertion)
    (hc : canonicalTasks ts) :
    ∀ c ∈ joinSep ',' (ts.map renderTask), c ≠ lbrace ∧ c ≠ rbrace := by
  intro c hcm
  constructor
  · rcases mem_joinSep ',' (ts.map renderTask) c hcm with rfl | ⟨p, hp, hcp⟩
    · decide
    · obtain ⟨t', ht', rfl⟩ := List.mem_map.mp hp
      exact renderTask_avoids t' (hc t' ht') lbrace (by decide) (by decide)
        (by decide) (by decide) c hcp
  · rcases mem_joinSep ',' (ts.map renderTask) c hcm with rfl | ⟨p, hp, hcp⟩
    · decide
    · obtain ⟨t', ht', rfl⟩ := List.mem_map.mp hp
      exact renderTask_avoids t' (hc t' ht') rbrace (by decide) (by decide)
        (by decide) (by decide) c hcp

/-- C7: the extraction backend's parser, fed the canonical rendered form of
any canonical task list, recovers exactly that task list — parsing after
rendering is the identity. -/
theorem parser_render_roundtrip (ts : List TaskAssertion)
    (hc : canonicalTasks ts) :
    parseResponse (renderResponse ts) = some ts := by
  unfold parseResponse renderResponse
  show (match extractBraceSpan
      (lbrace :: (joinSep ',' (ts.map renderTask) ++ [rbrace])) with
    | none => none
    | some inner => decodeTasks inner) = some ts
  rw [show extractBraceSpan
      (lbrace :: (joinSep ',' (ts.map renderTask) ++ [rbrace])) =
      takeBalanced (joinSep ',' (ts.map renderTask) ++ [rbrace]) 0 by
    simp [extractBraceSpan]]
  rw [takeBalanced_clean _ (interior_brace_free ts hc)]
  exact decodeTasks_joinSep ts hc

/-- Witness for C7 at a concrete two-task canonical response. -/
theorem parser_render_roundtrip_witness :
    canonicalTasks [⟨.schedule_meeting, [("date", "2025-10-01")]⟩,
      ⟨.plan_contact, []⟩] ∧
    parseResponse (renderResponse [⟨.schedule_meeting,
      [("date", "2025-10-01")]⟩, ⟨.plan_contact, []⟩]) =
      some [⟨.schedule_meeting, [("date", "2025-10-01")]⟩,
        ⟨.plan_contact, []⟩] :=
  ⟨by decide, parser_render_roundtrip _ (by decide)⟩

/-- C6: when the parser cannot locate and decode a well-formed JSON-like
structure in the model response, the backend's parse step returns an empty
task list with a false parse flag; being a total function, it raises no
exception. -/
theorem parse_failure_recovery (raw : String)
    (h : parseResponse raw = none) : predictParse raw = ([], false) := by
  simp [predictParse, h]

/-- Witness for C6 at a concrete unstructured model response. -/
theorem parse_failure_recovery_witness :
    parseResponse "The model rambled with no structured payload" = none ∧
    predictParse "The model rambled with no structured payload" =
      ([], false) :=
  ⟨by decide, parse_failure_recovery _ (by decide)⟩

/-- Modelled from the spec: a model's aggregate score across the test set —
the arithmetic mean of the per-transcript penalties. -/
def meanPenalty (records : List ScoreRecord) : ℚ :=
  (records.map ScoreRecord.penalty).sum / (records.length : ℚ)

/-- Modelled from the spec: the inverse-normalized human-readable score. -/
def reportScore (records : List ScoreRecord) (normalization : ℚ) : ℚ :=
  max 0 (1 - meanPenalty records / normalization)

/-- Every penalty the scorer produces is nonnegative. -/
theorem score_penalty_nonneg (expected predicted : List TaskAssertion) :
    0 ≤ (score expected predicted).penalty := by
  simp only [score, FN_WEIGHT, FP_WEIGHT]
  positivity

/-- A sum of nonnegative rationals vanishes exactly when every term does. -/
theorem sum_nonneg_eq_zero_iff (l : List ℚ) (h : ∀ x ∈ l, 0 ≤ x) :
    l.sum = 0 ↔ ∀ x ∈ l, x = 0 := by
  induction l with
  | nil => simp
  | cons a rest ih =>
    have ha : 0 ≤ a := h a (List.mem_cons_self _ _)
    have hrest : ∀ x ∈ rest, 0 ≤ x := fun x hx => h x (List.mem_cons_of_mem _ hx)
    have hsum : 0 ≤ rest.sum := List.sum_nonneg hrest
    simp only [List.sum_cons, add_eq_zero_iff_of_nonneg ha hsum, ih hrest,
      List.mem_cons]
    constructor
    · rintro ⟨h0, hall⟩ x (rfl | hx)
      · exact h0
      · exact hall x hx
    · intro hall
      exact ⟨hall a (Or.inl rfl), fun x hx => hall x (Or.inr hx)⟩

/-- C8: over any nonempty batch of (expected, predicted) pairs, the
aggregate is the arithmetic mean of the per-transcript penalties, it is
nonnegative with zero attained exactly when every transcript scores a
perfect zero penalty (so zero is the best possible value), and the reported
human-readable score is max of 0 and 1 minus the mean over the
normalization constant. -/
theorem aggregate_score_spec
    (pairs : List (List TaskAssertion × List TaskAssertion))
    (normalization : ℚ) (hne : pairs ≠ []) :
    meanPenalty (pairs.map (fun ep => score ep.1 ep.2)) =
      ((pairs.map (fun ep => score ep.1 ep.2)).map ScoreRecord.penalty).sum /
        ((pairs.map (fun ep => score ep.1 ep.2)).length : ℚ) ∧
    0 ≤ meanPenalty (pairs.map (fun ep => score ep.1 ep.2)) ∧
    (meanPenalty (pairs.map (fun ep => score ep.1 ep.2)) = 0 ↔
      ∀ ep ∈ pairs, (score ep.1 ep.2).penalty = 0) ∧
    reportScore (pairs.map (fun ep => score ep.1 ep.2)) normalization =
      max 0 (1 - meanPenalty (pairs.map (fun ep => score ep.1 ep.2)) /
        normalization) := by
  have hnonneg : ∀ x ∈ (pairs.map (fun ep => score ep.1 ep.2)).map
      ScoreRecord.penalty, 0 ≤ x := by
    intro x hx
    simp only [List.map_map, List.mem_map] at hx
    obtain ⟨ep, _, rfl⟩ := hx
    exact score_penalty_nonneg ep.1 ep.2
  have hlen : ((pairs.map (fun ep => score ep.1 ep.2)).length : ℚ) ≠ 0 := by
    simp only [List.length_map, ne_eq, Nat.cast_eq_zero, List.length_eq_zero]
    exact hne
  refine ⟨rfl, ?_, ?_, rfl⟩
  · exact div_nonneg (List.sum_nonneg hnonneg) (by positivity)
  · rw [meanPenalty, div_eq_zero_iff]
    constructor
    · rintro (hz | hz)
      · intro ep hep
        have := (sum_nonneg_eq_zero_iff _ hnonneg).mp hz
        exact this _ (by
          simp only [List.map_map, List.mem_map]
          exact ⟨ep, hep, rfl⟩)
      · exact absurd hz hlen
    · intro hall
      left
      rw [sum_nonneg_eq_zero_iff _ hnonneg]
      intro x hx
      simp only [List.map_map, List.mem_map] at hx
      obtain ⟨ep, hep, rfl⟩ := hx
      exact hall ep hep

/-- Witness for C8 at a concrete two-transcript batch. -/
theorem aggregate_score_spec_witness :
    ([([], []), ([planContactAssert], [])] :
      List (List TaskAssertion × List TaskAssertion)) ≠ [] ∧
    0 ≤ meanPenalty ((([([], []), ([planContactAssert], [])] :
      List (List TaskAssertion × List TaskAssertion))).map
        (fun ep => score ep.1 ep.2)) :=
  ⟨by decide,
    (aggregate_score_spec [([], []), ([planContactAssert], [])] 4
      (by decide)).2.1⟩

end TaskHarness

namespace Dashboard

/-- Task status union of the dashboard Task interface (frontend types). -/
inductive TaskStatus where
  | todo
  | inProgress
  | done
deriving DecidableEq, Repr

/-- The dashboard Task interface, translated field for field from the
frontend types module (optional TypeScript fields become Option). -/
structure Task where
  id : String
  description : String
  owner : String
  dueDate : String
  status : TaskStatus
  confidenceScore : Option ℚ
  evidence : Option String
  category : String
  meetingId : Option String
deriving DecidableEq, Repr

/-- Modelled from the spec: the UI task-record contract of section 6 with
its nine field names. -/
structure TaskContract where
  id : String
  description : String
  owner : String
  due_date : String
  status : TaskStatus
  confidence_score : Option ℚ
  evidence_quote : Option String
  category : String
  source_meeting_id : Option String
deriving DecidableEq, Repr

/-- Exposure of a dashboard task as the nine-field contract record. -/
def exposeTask (t : Task) : TaskContract :=
  ⟨t.id, t.description, t.owner, t.dueDate, t.status, t.confidenceScore,
    t.evidence, t.category, t.meetingId⟩

/-- C9: every dashboard task value is exposable as a record carrying all
nine contract fields, each populated from the corresponding Task field
(optional Task fields are exposed as optional contract values). -/
theorem task_exposable (t : Task) :
    ∃ r : TaskContract, r.id = t.id ∧ r.description = t.description ∧
      r.owner = t.owner ∧ r.due_date = t.dueDate ∧ r.status = t.status ∧
      r.confidence_score = t.confidenceScore ∧
      r.evidence_quote = t.evidence ∧ r.category = t.category ∧
      r.source_meeting_id = t.meetingId :=
  ⟨exposeTask t, rfl, rfl, rfl, rfl, rfl, rfl, rfl, rfl, rfl⟩

/-- Client status union of the ClientDatabase component. -/
inductive ClientStatus where
  | active
  | inactive
  | prospect
deriving DecidableEq, Repr

/-- Client type union of the ClientDatabase component. -/
inductive ClientType where
  | individual
  | family
  | corporate
deriving DecidableEq, Repr

/-- Risk tolerance union of the ClientDatabase component. -/
inductive RiskTolerance where
  | conservative
  | moderate
  | aggressive
deriving DecidableEq, Repr

/-- The Client interface of the ClientDatabase component, field for field. -/
structure Client where
  id : String
  name : String
  email : String
  phone : String
  status : ClientStatus
  type : ClientType
  portfolio : ℚ
  riskTolerance : RiskTolerance
  lastMeeting : String
  nextMeeting : Option String
  advisor : String
  location : String
  joinDate : String
  notes : Option String
deriving DecidableEq, Repr

/-- Does the haystack start with the needle? -/
def startsWithList : List Char → List Char → Bool
  | _, [] => true
  | [], _ :: _ => false
  | c :: cs, d :: ds => c == d && startsWithList cs ds

/-- Does the haystack contain the needle as a contiguous run? -/
def containsList (needle : List Char) : List Char → Bool
  | [] => startsWithList [] needle
  | c :: rest => startsWithList (c :: rest) needle || containsList needle rest

/-- Case-insensitive containment, translating the component's
lowercase-and-includes test. -/
def containsCI (hay needle : String) : Bool :=
  containsList (needle.data.map Char.toLower) (hay.data.map Char.toLower)

/-- The search condition of filteredClients: empty query, or the query
appears case-insensitively in the name, email or location. -/
def matchesSearch (c : Client) (q : String) : Bool :=
  q == "" || containsCI c.name q || containsCI c.email q ||
    containsCI c.location q

/-- The status condition of filteredClients (none translates the all
filter value). -/
def matchesStatus (c : Client) (f : Option ClientStatus) : Bool :=
  match f with
  | none => true
  | some s => c.status == s

/-- The type condition of filteredClients (none translates the all filter
value). -/
def matchesType (c : Client) (f : Option ClientType) : Bool :=
  match f with
  | none => true
  | some t => c.type == t

/-- The filteredClients computation of the ClientDatabase component. -/
def filteredClients (clients : List Client) (searchQuery : String)
    (statusFilter : Option ClientStatus) (typeFilter : Option ClientType) :
    List Client :=
  clients.filter (fun c =>
    matchesSearch c searchQuery && matchesStatus c statusFilter &&
      matchesType c typeFilter)

/-- The search condition unfolded to a proposition. -/
theorem matchesSearch_iff (c : Client) (q : String) :
    matchesSearch c q = true ↔
      q = "" ∨ containsCI c.name q = true ∨ containsCI c.email q = true ∨
        containsCI c.location q = true := by
  simp [matchesSearch, or_assoc]

/-- The status condition unfolded to a proposition. -/
theorem matchesStatus_iff (c : Client) (f : Option ClientStatus) :
    matchesStatus c f = true ↔ f = none ∨ f = some c.status := by
  cases f with
  | none => simp [matchesStatus]
  | some s =>
    simp only [matchesStatus, beq_iff_eq, Option.some.injEq]
    constructor
    · intro h; exact Or.inr h.symm
    · rintro (h | h)
      · exact Option.noConfusion h
      · exact h.symm

/-- The type condition unfolded to a proposition. -/
theorem matchesType_iff (c : Client) (f : Option ClientType) :
    matchesType c f = true ↔ f = none ∨ f = some c.type := by
  cases f with
  | none => simp [matchesType]
  | some t =>
    simp only [matchesType, beq_iff_eq, Option.some.injEq]
    constructor
    · intro h; exact Or.inr h.symm
    · rintro (h | h)
      · exact Option.noConfusion h
      · exact h.symm

/-- C10: a client appears in filteredClients exactly when it is in the
client list and the search, status, and type conditions all hold; with an
empty query and both filters at all, filteredClients is the full client
list in its original order. -/
theorem filteredClients_spec :
    (∀ (clients : List Client) (q : String) (sf : Option ClientStatus)
        (tf : Option ClientType) (c : Client),
      c ∈ filteredClients clients q sf tf ↔
        c ∈ clients ∧
        (q = "" ∨ containsCI c.name q = true ∨ containsCI c.email q = true ∨
          containsCI c.location q = true) ∧
        (sf = none ∨ sf = some c.status) ∧
        (tf = none ∨ tf = some c.type)) ∧
    (∀ clients : List Client, filteredClients clients "" none none = clients) := by
  constructor
  · intro clients q sf tf c
    rw [filteredClients, List.mem_filter]
    simp only [Bool.and_eq_true, matchesSearch_iff, matchesStatus_iff,
      matchesType_iff, and_assoc]
  · intro clients
    apply List.filter_eq_self.mpr
    intro c _
    simp [matchesSearch, matchesStatus, matchesType]

end Dashboard
